import Mathlib

/-!
Shallow embedding of the Bayesian-sampler core of `threeML`
(`threeML/bayesian/sampler_base.py`) and of the background polynomial
fitting engine (`threeML/plugins/FermiGBM_TTE_Like.py`).

Real numbers carried by the Python code are modelled by `ℚ`; the special
IEEE values that the sampler manipulates explicitly (`-np.inf`, `np.inf`,
NaN) are modelled by the dedicated type `PyFloat`.  Transcendental library
functions (`math.log10`, `numpy.log`) and `numpy.linalg.inv` are external
collaborators of the embedded code and are passed in as explicit function
arguments.  Exceptions are modelled with `Except`.
-/

namespace ThreeML

/-- Decidable equality for `Except`, so that concrete runs of the embedded
fallible code can be checked by `decide`. -/
instance {ε α : Type} [DecidableEq ε] [DecidableEq α] :
    DecidableEq (Except ε α) := fun a b =>
  match a, b with
  | .ok x, .ok y => decidable_of_iff (x = y) (by simp)
  | .error x, .error y => decidable_of_iff (x = y) (by simp)
  | .ok _, .error _ => isFalse (fun h => Except.noConfusion h)
  | .error _, .ok _ => isFalse (fun h => Except.noConfusion h)

/-- Python float values as seen by the sampler: a finite value, the two
infinities, or NaN. -/
inductive PyFloat where
  | fin (q : ℚ)
  | posinf
  | neginf
  | nan
deriving DecidableEq, Repr

/-- IEEE-style addition on `PyFloat` (NaN absorbs; opposite infinities give
NaN; an infinity absorbs finite values). -/
def PyFloat.add : PyFloat → PyFloat → PyFloat
  | .nan, _ => .nan
  | _, .nan => .nan
  | .posinf, .neginf => .nan
  | .neginf, .posinf => .nan
  | .posinf, _ => .posinf
  | _, .posinf => .posinf
  | .neginf, _ => .neginf
  | _, .neginf => .neginf
  | .fin a, .fin b => .fin (a + b)

/-- Model of `np.isfinite`. -/
def PyFloat.isfinite : PyFloat → Bool
  | .fin _ => true
  | _ => false

/-- Model of `np.sum` on a list of float values (left fold starting at 0). -/
def pySum (vs : List PyFloat) : PyFloat :=
  vs.foldl PyFloat.add (.fin 0)

/-- Exceptions a dataset's `get_log_like` may raise:
`ModelAssertionViolation` or any other (more serious) exception. -/
inductive DataErr where
  | mav
  | other
deriving DecidableEq, Repr

/-- A dataset as seen by `SamplerBase._log_like`: `get_log_like` reads the
parameter values currently assigned on the live model (passed here
explicitly as a list) and either returns a float or raises. -/
structure Dataset where
  get_log_like : List ℚ → Except DataErr PyFloat

/-- The list comprehension
`[dataset.get_log_like() for dataset in list(self._data_list.values())]`:
datasets are evaluated in order and the first exception aborts the whole
comprehension. -/
def evalDatasets : List Dataset → List ℚ → Except DataErr (List PyFloat)
  | [], _ => .ok []
  | d :: ds, vals =>
      match d.get_log_like vals with
      | .error e => .error e
      | .ok v =>
          match evalDatasets ds vals with
          | .error e => .error e
          | .ok rest => .ok (v :: rest)

/-- Outcome of `SamplerBase._log_like`: the returned value and whether the
`LikelihoodIsInfinite` warning was emitted. -/
structure LLOut where
  val : PyFloat
  warned : Bool
deriving DecidableEq, Repr

/-- Embedding of `SamplerBase._log_like`.  The `try` block evaluates every
dataset; `ModelAssertionViolation` is caught and converted to `-np.inf`,
any other exception is re-raised (`Except.error ()`).  If the summed
log-likelihood is not finite a warning is emitted and `-np.inf` is
returned. -/
def log_like_run (datasets : List Dataset) (assigned : List ℚ) :
    Except Unit LLOut :=
  match evalDatasets datasets assigned with
  | .error .mav => .ok ⟨.neginf, false⟩
  | .error .other => .error ()
  | .ok vals =>
      let s := pySum vals
      if s.isfinite then .ok ⟨s, false⟩ else .ok ⟨.neginf, true⟩

/-- A free parameter as seen by the posterior-evaluation loop: only its
prior density matters (`parameter.prior(x)`). -/
structure EParam where
  prior : ℚ → ℚ

/-- Value returned by the prior loop: either `-np.inf` (some prior density
was exactly zero) or a finite accumulated log10-prior. -/
inductive PriorOut where
  | neginf
  | fin (q : ℚ)
deriving DecidableEq, Repr

/-- The shared loop of `SamplerBase.get_posterior` and
`SamplerBase._log_prior`: walk the free parameters in order, return
`-np.inf` as soon as a prior density is exactly zero, otherwise accumulate
`log10(prior_value)`.  Indexing `trial_values[i]` past the end of the trial
vector raises (`Except.error ()`, an `IndexError`). -/
def log_prior_go (log10 : ℚ → ℚ) :
    List EParam → List ℚ → ℚ → Except Unit PriorOut
  | [], _, acc => .ok (.fin acc)
  | p :: ps, t :: ts, acc =>
      if p.prior t = 0 then .ok .neginf
      else log_prior_go log10 ps ts (acc + log10 (p.prior t))
  | _ :: _, [], _ => .error ()

/-- Embedding of `SamplerBase._log_prior`. -/
def log_prior_run (log10 : ℚ → ℚ) (params : List EParam) (trial : List ℚ) :
    Except Unit PriorOut :=
  log_prior_go log10 params trial 0

/-- Exceptions that may escape `SamplerBase.get_posterior`: the length
assertion, an `IndexError`, or an uncaught exception from a dataset. -/
inductive PyExc where
  | assertionError
  | indexError
  | datasetError
deriving DecidableEq, Repr

/-- Embedding of `SamplerBase.get_posterior`.  After the length assertion,
the prior loop runs (also assigning each trial value onto the live
parameter, so that by the time `_log_like` is called the assigned parameter
vector equals `trial`); a zero prior density short-circuits to `-np.inf`
before any dataset is evaluated; otherwise the returned value is
`log_like + log_prior`. -/
def get_posterior (log10 : ℚ → ℚ) (params : List EParam)
    (datasets : List Dataset) (trial : List ℚ) : Except PyExc PyFloat :=
  if trial.length = params.length then
    match log_prior_go log10 params trial 0 with
    | .error _ => .error .indexError
    | .ok .neginf => .ok .neginf
    | .ok (.fin lp) =>
        match log_like_run datasets trial with
        | .error _ => .error .datasetError
        | .ok out => .ok (PyFloat.add out.val (.fin lp))
  else .error .assertionError

/-- Character-list prefix test, used to model Python's substring operator. -/
def hasPre : List Nat → List Nat → Bool
  | [], _ => true
  | _ :: _, [] => false
  | a :: as, b :: bs => a == b && hasPre as bs

/-- Model of Python's `sub in big` on strings (contiguous substring test);
names are modelled as lists of character codes. -/
def isSub (sub : List Nat) : List Nat → Bool
  | [] => sub.isEmpty
  | b :: bs => hasPre sub (b :: bs) || isSub sub bs

/-- A model parameter as seen by `_register_model_and_data`: only
`has_prior()` matters, plus an opaque payload identifying the parameter. -/
structure RParam where
  hasPrior : Bool
  payload : Nat
deriving DecidableEq, Repr

/-- A dataset as seen by `_register_model_and_data`: its `name` and its
`nuisance_parameters` ordered mapping (name/parameter pairs). -/
structure RDataset where
  name : List Nat
  nuisance : List (List Nat × RParam)
deriving DecidableEq, Repr

/-- The likelihood model as seen by `_register_model_and_data`: its free
parameters (name/parameter pairs) and the external parameters added via
`add_external_parameter`. -/
structure RModel where
  freeParams : List (List Nat × RParam)
  externalParams : List RParam
deriving DecidableEq, Repr

/-- Setup-time failures of `_register_model_and_data` (the spec's
`ConfigurationError` taxonomy): the `RuntimeError` for a free parameter
without a prior, and the `AssertionError` for a nuisance-parameter name not
containing its dataset's name. -/
inductive RegErr where
  | noPrior
  | nuisanceName
deriving DecidableEq, Repr

/-- The inner dataset loop of `_register_model_and_data`: for each dataset
(after `set_model`, an external effect), each nuisance parameter's name
must contain the dataset's name (`assert dataset.name in parameter_name`),
and the parameter is passed to `add_external_parameter`.  Returns the
external parameters collected in order. -/
def collectNuisance : List RDataset → Except RegErr (List RParam)
  | [] => .ok []
  | d :: ds =>
      match goPairs d.name d.nuisance with
      | .error e => .error e
      | .ok here =>
          match collectNuisance ds with
          | .error e => .error e
          | .ok rest => .ok (here ++ rest)
where
  goPairs (dname : List Nat) :
      List (List Nat × RParam) → Except RegErr (List RParam)
    | [] => .ok []
    | (pname, p) :: rest =>
        if isSub dname pname then
          match goPairs dname rest with
          | .error e => .error e
          | .ok tailParams => .ok (p :: tailParams)
        else .error .nuisanceName

/-- Whether every free parameter of the model has a prior (the first loop
of `_register_model_and_data`, which runs before any dataset is touched). -/
def allHavePriors (model : RModel) : Bool :=
  model.freeParams.all (fun p => p.2.hasPrior)

/-- Embedding of `SamplerBase._register_model_and_data`: on success returns
the updated model (nuisance parameters appended as external parameters)
together with the `_is_registered = True` flag. -/
def register_model_and_data (model : RModel) (datasets : List RDataset) :
    Except RegErr (RModel × Bool) :=
  if allHavePriors model then
    match collectNuisance datasets with
    | .error e => .error e
    | .ok ext =>
        .ok ({ model with externalParams := model.externalParams ++ ext },
             true)
  else .error .noPrior

/-- A free parameter as seen by `_construct_unitcube_posterior`: an
identifying name and, optionally, the prior's `from_unit_cube` transform
(`none` models a prior without that attribute, so accessing it raises
`AttributeError`). -/
structure CubeParam where
  name : Nat
  fromUnitCube : Option (ℚ → ℚ)

/-- Failures of the unit-cube prior transform: the `RuntimeError` naming
the offending parameter when its prior lacks `from_unit_cube`, or an
`IndexError` when the cube vector is shorter than the parameter list. -/
inductive CubeErr where
  | missing (name : Nat)
  | idx
deriving DecidableEq, Repr

/-- The body shared by both `prior` closures built in
`_construct_unitcube_posterior`: walk the free parameters in order and map
`params[i]` through `parameter.prior.from_unit_cube`; entries of the cube
vector beyond the parameter list are left unchanged. -/
def cube_go : List CubeParam → List ℚ → Except CubeErr (List ℚ)
  | [], rest => .ok rest
  | p :: ps, c :: cs =>
      match p.fromUnitCube with
      | none => .error (.missing p.name)
      | some f =>
          match cube_go ps cs with
          | .error e => .error e
          | .ok rest => .ok (f c :: rest)
  | _ :: _, [] => .error .idx

/-- Embedding of `UnitCubeSampler._construct_unitcube_posterior`: returns
the prior-transform closure (`cube_go params`).  Only the
`return_copy = False` branch performs the dry-run evaluation
`prior([0.5] * n_dim, n_dim, [])` before returning, so only there can a
missing `from_unit_cube` surface at construction time. -/
def construct_unitcube_posterior (params : List CubeParam)
    (return_copy : Bool) : Except CubeErr (List ℚ → Except CubeErr (List ℚ)) :=
  if return_copy then .ok (cube_go params)
  else
    match cube_go params (List.replicate params.length (1/2 : ℚ)) with
    | .error e => .error e
    | .ok _ => .ok (cube_go params)

/-- Boolean success test for `Except` (payload may be a function, so this
avoids needing decidable equality). -/
def isOkB {ε α : Type} : Except ε α → Bool
  | .ok _ => true
  | .error _ => false

/-- Horner-scheme evaluation of a polynomial given by its coefficient list
(lowest degree first), as in `Polynomial.horner`: iterate
`result = result * x + coefficient` over the reversed coefficient list. -/
def horner (params : List ℚ) (x : ℚ) : ℚ :=
  params.reverse.foldl (fun result c => result * x + c) 0

/-- Model of `numpy.sign` on a rational. -/
def qsign (v : ℚ) : ℚ :=
  if v < 0 then -1 else if v = 0 then 0 else 1

/-- Entry-wise effect of `BkgLogLikelihood._fixPrecision`: values whose
absolute value is at most `tiny` are replaced by `sign(v) * tiny` (so exact
zeros stay zero). -/
def fixP (tiny v : ℚ) : ℚ :=
  if |v| ≤ tiny then qsign v * tiny else v

/-- Entry-wise effect of `BkgLogLikelihood._evalLogM`: the stabilized
logarithm, `log m` above `2 * tiny` and the linear extrapolation
`|m| / tiny + log(tiny) - 1` at or below it.  The library `numpy.log` is an
external collaborator passed in as `log`. -/
def stabLog (log : ℚ → ℚ) (tiny m : ℚ) : ℚ :=
  if 2 * tiny < m then log m else |m| / tiny + log tiny - 1

/-- Embedding of `BkgLogLikelihood.__call__` (the Cash statistic).  The
model values are `model(x) * exposure`; `_fixPrecision` mutates that array
in place (so `Mfixed` aliases `M`), negative entries are then zeroed on the
same array, `logM` is the stabilized log of the zeroed array, the
`D_i * log(M_i)` vector is initialized to zero and only overwritten where
`y_i > 0`, and the result is `sum(Mfixed - d_times_logM)`. -/
def bkgLogLike (log : ℚ → ℚ) (tiny : ℚ) (x y exposure pars : List ℚ) : ℚ :=
  let M0 := (x.zip exposure).map (fun xe => horner pars xe.1 * xe.2)
  let M1 := M0.map (fixP tiny)
  let M2 := M1.map (fun m => if m < 0 then 0 else m)
  let logM := M2.map (stabLog log tiny)
  let dlog := (y.zip logM).map (fun yl => if 0 < yl.1 then yl.1 * yl.2 else 0)
  ((M2.zip dlog).map (fun t => t.1 - t.2)).foldl (· + ·) 0

/-- Embedding of `BkgLogLikelihood.__call__` with the default exposure
(all ones, set in `BkgLogLikelihood.__init__` when no `exposure` keyword is
given). -/
def bkgLogLikeDefault (log : ℚ → ℚ) (tiny : ℚ) (x y pars : List ℚ) : ℚ :=
  bkgLogLike log tiny x y (List.replicate x.length 1) pars

/-- The final per-bin term list of `BkgLogLikelihood.__call__`, written
exactly as the staged array computation of `bkgLogLike` but kept as a list
(the statistic is its left-fold sum). -/
def cashTermList (log : ℚ → ℚ) (tiny : ℚ) (x y exposure pars : List ℚ) :
    List ℚ :=
  let M0 := (x.zip exposure).map (fun xe => horner pars xe.1 * xe.2)
  let M1 := M0.map (fixP tiny)
  let M2 := M1.map (fun m => if m < 0 then 0 else m)
  let logM := M2.map (stabLog log tiny)
  let dlog := (y.zip logM).map (fun yl => if 0 < yl.1 then yl.1 * yl.2 else 0)
  (M2.zip dlog).map (fun t => t.1 - t.2)

/-- The per-bin contribution of the Cash statistic in closed form: the
precision-fixed model value clamped at zero, minus the data count times the
stabilized log of that clamped value, the product being zero whenever the
count is not positive. -/
def cashTerm (log : ℚ → ℚ) (tiny m yv : ℚ) : ℚ :=
  let mc := if fixP tiny m < 0 then 0 else fixP tiny m
  mc - (if 0 < yv then yv * stabLog log tiny mc else 0)

/-- The consecutive-degree statistics of
`_fitGlobalAndDetermineOptimumGrade`:
`deltaLoglike = [2 * (logLike[g] - logLike[g+1]) for consecutive pairs]`. -/
def deltaLogLike (lls : List ℚ) : List ℚ :=
  (lls.zip lls.tail).map (fun p => 2 * (p.1 - p.2))

/-- The selection step of `_fitGlobalAndDetermineOptimumGrade`:
`mask = (deltaLoglike >= 9.0)`; if no entry crosses, the best grade is 0,
otherwise it is the last crossing index plus one
(`mask.nonzero()[0][-1] + 1`). -/
def bestGrade (lls : List ℚ) : ℕ :=
  let deltas := deltaLogLike lls
  let crossings := (deltas.enum.filter (fun p => 9 ≤ p.2)).map Prod.fst
  match crossings.getLast? with
  | none => 0
  | some i => i + 1

/-- Embedding of `FermiGBMLike._fitGlobalAndDetermineOptimumGrade`: fit the
channel-summed series with `self._polyfit` for every grade 0..4 (the fitter
itself is the external argument `polyfit`, returning the log-likelihood of
the fit), then select the grade from the consecutive-degree statistics. -/
def fitGlobalOptimumGrade (polyfit : List ℚ → List ℚ → ℕ → ℚ)
    (cnts bins : List ℚ) : ℕ :=
  bestGrade ((List.range 5).map (fun grade => polyfit bins cnts grade))

/-- One-guard-per-step unfolding of the `while` loop of `_polyfit` that
drops the highest-degree coefficient:
`while (dof < 2 and len(initialGuess) > 1)`.  Note that `dof` is never
recomputed inside the loop body in the source, so it is a loop constant
here.  The fuel argument only serves structural recursion: every iteration
shortens the list by one, so `ig.length` steps are always enough for the
guard to fail before the fuel runs out. -/
def shrinkGo (dof : ℤ) : ℕ → List ℚ → List ℚ
  | 0, ig => ig
  | n + 1, ig =>
      if dof < 2 ∧ 1 < ig.length then shrinkGo dof n ig.dropLast else ig

/-- The `while` loop of `_polyfit`, entered with the current coefficient
vector. -/
def shrinkLoop (dof : ℤ) (ig : List ℚ) : List ℚ :=
  shrinkGo dof ig.length ig

/-- The degrees-of-freedom adjustment block of `FermiGBMLike._polyfit`:
`dof = Nnonzero - (polGrade + 1)`; when `dof <= 2` the shrink loop runs on
the coefficient vector. -/
def polyfitDofAdjust (nNonzero polGrade : ℕ) (ig : List ℚ) : List ℚ :=
  let dof : ℤ := (nNonzero : ℤ) - ((polGrade : ℤ) + 1)
  if dof ≤ 2 then shrinkLoop dof ig else ig

/-- Keyword configuration of the free function `computeCovarianceMatrix`
(the values are the defaults of the Python signature). -/
structure CovCfg where
  min_step : ℚ
  max_step : ℚ
  target : ℚ
  min_func : ℚ
  max_func : ℚ
  max_iters : ℕ

/-- The default keyword arguments of `computeCovarianceMatrix`:
`min_step=1e-12, max_step=1, max_iters=50, target=0.1, min_func=1e-7,
max_func=4`. -/
def defaultCovCfg : CovCfg :=
  ⟨1 / 10 ^ 12, 1, 1 / 10, 1 / 10 ^ 7, 4, 50⟩

/-- Result of `revised_step`: either the step converged, or a new step size
to try. -/
inductive StepRes where
  | conv
  | next (s : ℚ)
deriving DecidableEq, Repr

/-- Embedding of the inner `revised_step` helper of
`computeCovarianceMatrix`.  A step exactly at `max_step` or `min_step` is
accepted; otherwise, if the gradient change is outside
`[min_func, max_func]` the step is rescaled by `target / |delta_f|` and
clamped into `[min_step, max_step]` (with `|delta_f| = 0` the Python
division by zero yields `+inf`, which the clamp turns into `max_step`;
that case is written out explicitly here), else the step is accepted. -/
def revised_step (cfg : CovCfg) (delta_f current_step : ℚ) : StepRes :=
  if current_step = cfg.max_step then .conv
  else if current_step = cfg.min_step then .conv
  else
    let adf := |delta_f|
    if adf < cfg.min_func ∨ cfg.max_func < adf then
      if adf = 0 then .next cfg.max_step
      else .next (max (min (current_step / (adf / cfg.target)) cfg.max_step)
                      cfg.min_step)
    else .conv

/-- The parameter vector with `di` added to entry `i`
(`par[i] += di` followed by a `grad` call). -/
def bump (par : List ℚ) (i : ℕ) (di : ℚ) : List ℚ :=
  par.set i (par.getD i 0 + di)

/-- Output of the per-parameter step-sizing loop: the last `g_up`, `g_dn`,
the last step size `di`, and whether the loop converged. -/
structure RowOut where
  g_up : List ℚ
  g_dn : List ℚ
  di : ℚ
  converged : Bool

/-- The `for j in xrange(max_iters)` loop of `computeCovarianceMatrix` for
one parameter index `i`: evaluate the gradient at `par ± di`, ask
`revised_step` whether the change in the `i`-th gradient component is
acceptable, and either stop or retry with the revised step.  `fuel` is the
remaining number of iterations; when it runs out the values of the last
iteration are kept with `converged = False`.  (All call sites in the source
use the default `max_iters = 50`, so the loop body runs at least once.) -/
def rowLoop (cfg : CovCfg) (grad : List ℚ → List ℚ) (par : List ℚ) (i : ℕ) :
    ℕ → ℚ → RowOut
  | 0, s => ⟨[], [], s, false⟩
  | fuel + 1, s =>
      let gu := grad (bump par i s)
      let gd := grad (bump par i (-s))
      let delta_f := gu.getD i 0 - gd.getD i 0
      match revised_step cfg delta_f s with
      | .conv => ⟨gu, gd, s, true⟩
      | .next ns =>
          if fuel = 0 then ⟨gu, gd, s, false⟩
          else rowLoop cfg grad par i fuel ns

/-- The initial step size of `computeCovarianceMatrix`:
`init_step` clamped from below by `min_step * 1.1` and from above by
`max_step * 0.9`. -/
def initStep (cfg : CovCfg) (init_step : ℚ) : ℚ :=
  min (max init_step (cfg.min_step * (11 / 10))) (cfg.max_step * (9 / 10))

/-- Row `i` of the finite-difference Hessian together with the convergence
flag: `hess[i,:] = (g_up - g_dn) / (2 * di)`. -/
def hessRow (cfg : CovCfg) (grad : List ℚ → List ℚ) (par : List ℚ)
    (s0 : ℚ) (i : ℕ) : List ℚ × Bool :=
  let r := rowLoop cfg grad par i cfg.max_iters s0
  ((r.g_up.zip r.g_dn).map (fun g => (g.1 - g.2) / (2 * r.di)), r.converged)

/-- The assembled finite-difference Hessian of
`computeCovarianceMatrix` (rows are used whether or not their step size
converged). -/
def hessOf (cfg : CovCfg) (init_step : ℚ) (grad : List ℚ → List ℚ)
    (par : List ℚ) : List (List ℚ) :=
  (List.range par.length).map
    (fun i => (hessRow cfg grad par (initStep cfg init_step) i).1)

/-- Indices of parameters whose step sizing did not converge; each one only
produces the non-fatal warning print. -/
def warnRows (cfg : CovCfg) (init_step : ℚ) (grad : List ℚ → List ℚ)
    (par : List ℚ) : List ℕ :=
  (List.range par.length).filter
    (fun i => !(hessRow cfg grad par (initStep cfg init_step) i).2)

/-- Embedding of the free function `computeCovarianceMatrix` (with
`full_output=False`): assemble the Hessian and invert it with
`numpy.linalg.inv` (the external collaborator `inv`, returning `none` when
the matrix is not invertible, which the source converts to the fatal
`Exception` about inverting the hessian).  The returned list of indices
records the non-fatal step-size warnings. -/
def computeCovMatrix (cfg : CovCfg) (init_step : ℚ)
    (inv : List (List ℚ) → Option (List (List ℚ)))
    (grad : List ℚ → List ℚ) (par : List ℚ) :
    Except Unit (List (List ℚ) × List ℕ) :=
  match inv (hessOf cfg init_step grad par) with
  | none => .error ()
  | some cov => .ok (cov, warnRows cfg init_step grad par)

/-- Whether some diagonal entry of the matrix is negative
(`numpy.matrix.diagonal(self.covMatrix) < 0` having a nonzero entry). -/
def anyDiagNeg (m : List (List ℚ)) : Bool :=
  (m.enum.map (fun r => r.2.getD r.1 0)).any (fun d => d < 0)

/-- Failures of `Polynomial.computeCovarianceMatrix`: the `Exception` from
a singular Hessian, or the `RuntimeError` for a negative diagonal entry of
the covariance matrix. -/
inductive CovErr where
  | singular
  | negDiag
deriving DecidableEq, Repr

/-- Embedding of `Polynomial.computeCovarianceMatrix` (return-value view):
call the free function with its default keyword arguments and
`init_step = 0.01`, then fail if any diagonal covariance entry is
negative. -/
def polyComputeCov (inv : List (List ℚ) → Option (List (List ℚ)))
    (grad : List ℚ → List ℚ) (pars : List ℚ) :
    Except CovErr (List (List ℚ)) :=
  match computeCovMatrix defaultCovCfg (1 / 100) inv grad pars with
  | .error _ => .error .singular
  | .ok (cov, _) => if anyDiagNeg cov then .error .negDiag else .ok cov

/-- The mutable state of a `Polynomial` object: `self.params`,
`self.degree` (fixed at construction as `len(params) - 1`) and
`self.covMatrix`. -/
structure PolyState where
  params : List ℚ
  degree : ℤ
  covMatrix : List (List ℚ)
deriving Repr

/-- A square matrix of zeros of the given size, as built by
`numpy.zeros([n, n])`. -/
def zeroMatrix (n : ℕ) : List (List ℚ) :=
  List.replicate n (List.replicate n 0)

/-- Embedding of `Polynomial.__init__`: store the coefficients, set
`degree = len(params) - 1`, and build an all-zero covariance matrix of
shape `(degree + 1, degree + 1)`. -/
def polyInit (ps : List ℚ) : PolyState :=
  ⟨ps, (ps.length : ℤ) - 1, zeroMatrix ps.length⟩

/-- Embedding of `Polynomial.setParams`: replaces `self.params` and touches
nothing else (in particular neither `degree` nor `covMatrix`). -/
def polySetParams (st : PolyState) (ps : List ℚ) : PolyState :=
  { st with params := ps }

/-- Embedding of `Polynomial.computeCovarianceMatrix` as a state update:
`self.covMatrix` is assigned the result of the free function *before* the
negative-diagonal check, so a `negDiag` failure still leaves the new matrix
stored; only a singular Hessian leaves the state unchanged. -/
def polyComputeCovState (st : PolyState)
    (inv : List (List ℚ) → Option (List (List ℚ)))
    (grad : List ℚ → List ℚ) : PolyState × Except CovErr Unit :=
  match computeCovMatrix defaultCovCfg (1 / 100) inv grad st.params with
  | .error _ => (st, .error .singular)
  | .ok (cov, _) =>
      ({ st with covMatrix := cov },
       if anyDiagNeg cov then .error .negDiag else .ok ())

/-- An operation on a live `Polynomial` object, for stating invariants over
operation sequences. -/
inductive PolyOp where
  | set (ps : List ℚ)
  | computeCov (inv : List (List ℚ) → Option (List (List ℚ)))
               (grad : List ℚ → List ℚ)

/-- Apply one operation to a `Polynomial` state (failures of
`computeCovarianceMatrix` leave the object in the state it had when the
exception was raised). -/
def applyOp (st : PolyState) : PolyOp → PolyState
  | .set ps => polySetParams st ps
  | .computeCov inv grad => (polyComputeCovState st inv grad).1

/-- Apply a sequence of operations from left to right. -/
def applyOps (st : PolyState) (ops : List PolyOp) : PolyState :=
  ops.foldl applyOp st

/-- The shape invariant claimed for `Polynomial`: the coefficient count
equals `degree + 1` and the covariance matrix is square of that size. -/
def polyInvariant (st : PolyState) : Prop :=
  (st.params.length : ℤ) = st.degree + 1 ∧
  (st.covMatrix.length : ℤ) = st.degree + 1 ∧
  ∀ row ∈ st.covMatrix, (row.length : ℤ) = st.degree + 1

/-- Boolean checker for the `Polynomial` shape invariant, so that concrete
violations can be exhibited as closed equalities. -/
def polyInvariantB (st : PolyState) : Bool :=
  ((st.params.length : ℤ) == st.degree + 1) &&
  ((st.covMatrix.length : ℤ) == st.degree + 1) &&
  st.covMatrix.all (fun row => (row.length : ℤ) == st.degree + 1)

/-- Well-formedness of one `Polynomial` operation relative to the state the
object was constructed in: `setParams` receives a coefficient vector of the
object's arity (as every caller in the source does), and the external
collaborators of `computeCovarianceMatrix` respect their numpy contracts
(`numpy.linalg.inv` returns a matrix of its input's shape, the gradient
returns a vector of its input's length). -/
def opOk (st0 : PolyState) : PolyOp → Prop
  | .set ps => (ps.length : ℤ) = st0.degree + 1
  | .computeCov inv grad =>
      (∀ m r, inv m = some r →
         r.length = m.length ∧ ∀ row ∈ r, row.length = m.length) ∧
      (∀ p, (grad p).length = p.length)

/-- If every prior density along the trial vector is positive, the prior
loop completes with some finite accumulated log-prior. -/
theorem log_prior_go_pos (log10 : ℚ → ℚ) :
    ∀ (ps : List EParam) (ts : List ℚ) (acc : ℚ),
      ts.length = ps.length →
      (∀ pt ∈ ps.zip ts, 0 < pt.1.prior pt.2) →
      ∃ s, log_prior_go log10 ps ts acc = .ok (.fin s)
  | [], _, acc, _, _ => ⟨acc, rfl⟩
  | p :: ps, t :: ts, acc, hlen, hpos => by
      have hp : 0 < p.prior t := hpos (p, t) (by simp)
      have hne : ¬ p.prior t = 0 := ne_of_gt hp
      simp only [log_prior_go, hne, if_false]
      exact log_prior_go_pos log10 ps ts _ (by simpa using hlen)
        (fun pt hpt => hpos pt (List.mem_cons_of_mem _ hpt))

/-- If some prior density along the trial vector is exactly zero, the prior
loop returns `-np.inf`, whatever the accumulator. -/
theorem log_prior_go_zero (log10 : ℚ → ℚ) :
    ∀ (ps : List EParam) (ts : List ℚ) (acc : ℚ),
      (∃ pt ∈ ps.zip ts, pt.1.prior pt.2 = 0) →
      log_prior_go log10 ps ts acc = .ok .neginf
  | [], ts, acc, h => by simp at h
  | p :: ps, [], acc, h => by simp at h
  | p :: ps, t :: ts, acc, h => by
      by_cases hz : p.prior t = 0
      · simp [log_prior_go, hz]
      · simp only [log_prior_go, hz, if_false]
        refine log_prior_go_zero log10 ps ts _ ?_
        rcases h with ⟨pt, hmem, hval⟩
        rcases List.mem_cons.mp (by simpa using hmem) with heq | htail
        · rw [heq] at hval
          exact absurd hval hz
        · exact ⟨pt, htail, hval⟩

/-- C1: for every trial vector on which every free parameter's prior
density is strictly positive (and of the right length), whenever
`_log_like` returns a value, `get_posterior` returns exactly the sum of
`_log_prior` and `_log_like` on that same vector (the datasets'
`get_log_like` being, by construction of the embedding, deterministic
functions of the assigned parameter values). -/
theorem C1_posterior_decomposition (log10 : ℚ → ℚ) (params : List EParam)
    (datasets : List Dataset) (trial : List ℚ) (out : LLOut)
    (hlen : trial.length = params.length)
    (hpos : ∀ pt ∈ params.zip trial, 0 < pt.1.prior pt.2)
    (hlike : log_like_run datasets trial = .ok out) :
    ∃ lp, log_prior_run log10 params trial = .ok (.fin lp) ∧
      get_posterior log10 params datasets trial =
        .ok (PyFloat.add out.val (.fin lp)) := by
  obtain ⟨lp, hlp⟩ := log_prior_go_pos log10 params trial 0 hlen hpos
  refine ⟨lp, hlp, ?_⟩
  simp [get_posterior, hlen, hlp, hlike]

/-- Closed instance of `C1_posterior_decomposition`: one flat-prior
parameter, one dataset returning log-likelihood 2, trial value 0. -/
theorem C1_witness :
    log_prior_run (fun _ => 0) [⟨fun _ => 1⟩] [0] = .ok (.fin 0) ∧
    get_posterior (fun _ => 0) [⟨fun _ => 1⟩]
        [⟨fun _ => .ok (.fin 2)⟩] [0] =
      .ok (PyFloat.add (.fin 2) (.fin 0)) := by
  obtain ⟨lp, hlp, hpost⟩ :=
    C1_posterior_decomposition (fun _ => 0) [⟨fun _ => 1⟩]
      [⟨fun _ => .ok (.fin 2)⟩] [0] ⟨.fin 2, false⟩ rfl
      (by intro pt hpt; simp at hpt; simp [hpt])
      (by simp [log_like_run, evalDatasets, pySum, PyFloat.add,
        PyFloat.isfinite])
  have hlp0 : lp = 0 := by
    rw [log_prior_run, log_prior_go] at hlp
    norm_num at hlp
    rw [log_prior_go] at hlp
    simp at hlp
    exact hlp.symm
  subst hlp0
  exact ⟨hlp, hpost⟩

/-- C2: for every trial vector (of the right length) on which some free
parameter's prior density is exactly zero, `_log_prior` returns `-np.inf`,
and `get_posterior` returns `-np.inf` for every dataset list whatsoever --
in particular its value does not depend on the datasets, so no dataset's
`get_log_like` is evaluated. -/
theorem C2_out_of_support (log10 : ℚ → ℚ) (params : List EParam)
    (trial : List ℚ) (hlen : trial.length = params.length)
    (hzero : ∃ pt ∈ params.zip trial, pt.1.prior pt.2 = 0) :
    log_prior_run log10 params trial = .ok .neginf ∧
    ∀ datasets : List Dataset,
      get_posterior log10 params datasets trial = .ok .neginf := by
  have hgo := log_prior_go_zero log10 params trial 0 hzero
  refine ⟨hgo, fun datasets => ?_⟩
  simp [get_posterior, hlen, hgo]

/-- Closed instance of `C2_out_of_support`: a parameter whose prior density
is identically zero, with the empty dataset list on one side and a
nontrivial one on the other giving the same `-np.inf`. -/
theorem C2_witness :
    log_prior_run (fun _ => 0) [⟨fun _ => 0⟩] [3] = .ok .neginf ∧
    get_posterior (fun _ => 0) [⟨fun _ => 0⟩] [] [3] = .ok .neginf ∧
    get_posterior (fun _ => 0) [⟨fun _ => 0⟩]
      [⟨fun _ => .error .other⟩] [3] = .ok .neginf := by
  have h := C2_out_of_support (fun _ => 0) [⟨fun _ => 0⟩] [3] rfl
    ⟨(⟨fun _ => 0⟩, 3), by simp, rfl⟩
  exact ⟨h.1, h.2 [], h.2 [⟨fun _ => .error .other⟩]⟩

/-- If every dataset before `d` evaluates successfully and `d` raises, the
whole dataset comprehension raises `d`'s exception. -/
theorem evalDatasets_error_of_mem (assigned : List ℚ) (d : Dataset)
    (e : DataErr) (post : List Dataset) :
    ∀ pre : List Dataset,
      (∀ p ∈ pre, isOkB (p.get_log_like assigned) = true) →
      d.get_log_like assigned = .error e →
      evalDatasets (pre ++ d :: post) assigned = .error e
  | [], _, hd => by simp [evalDatasets, hd]
  | p :: pre, hpre, hd => by
      have hp : isOkB (p.get_log_like assigned) = true := hpre p (by simp)
      obtain ⟨v, hv⟩ : ∃ v, p.get_log_like assigned = .ok v := by
        cases hpv : p.get_log_like assigned with
        | ok v => exact ⟨v, rfl⟩
        | error e => rw [hpv] at hp; simp [isOkB] at hp
      have ih := evalDatasets_error_of_mem assigned d e post pre
        (fun q hq => hpre q (List.mem_cons_of_mem _ hq)) hd
      simp [evalDatasets, hv, ih]

/-- C8: `_log_like` catches only `ModelAssertionViolation` from dataset
likelihood evaluation (converting it to `-np.inf`); any other exception
propagates to the caller unchanged; and when every dataset evaluates, a
non-finite sum produces the recoverable warning and `-np.inf` while a
finite sum is returned as is. -/
theorem C8_log_like_error_policy :
    (∀ (pre post : List Dataset) (d : Dataset) (assigned : List ℚ),
       (∀ p ∈ pre, isOkB (p.get_log_like assigned) = true) →
       (d.get_log_like assigned = .error .mav →
          log_like_run (pre ++ d :: post) assigned = .ok ⟨.neginf, false⟩) ∧
       (d.get_log_like assigned = .error .other →
          log_like_run (pre ++ d :: post) assigned = .error ())) ∧
    (∀ (datasets : List Dataset) (assigned : List ℚ) (vals : List PyFloat),
       evalDatasets datasets assigned = .ok vals →
       ((pySum vals).isfinite = true →
          log_like_run datasets assigned = .ok ⟨pySum vals, false⟩) ∧
       ((pySum vals).isfinite = false →
          log_like_run datasets assigned = .ok ⟨.neginf, true⟩)) := by
  constructor
  · intro pre post d assigned hpre
    constructor
    · intro hd
      have := evalDatasets_error_of_mem assigned d .mav post pre hpre hd
      simp [log_like_run, this]
    · intro hd
      have := evalDatasets_error_of_mem assigned d .other post pre hpre hd
      simp [log_like_run, this]
  · intro datasets assigned vals hok
    constructor
    · intro hfin
      simp [log_like_run, hok, hfin]
    · intro hfin
      simp [log_like_run, hok, hfin]

/-- Closed instance of `C8_log_like_error_policy`: a single dataset raising
`ModelAssertionViolation` yields `-np.inf`; a single dataset returning
`+np.inf` trips the non-finite warning. -/
theorem C8_witness :
    log_like_run [⟨fun _ => .error .mav⟩] [] = .ok ⟨.neginf, false⟩ ∧
    log_like_run [⟨fun _ => .ok .posinf⟩] [] = .ok ⟨.neginf, true⟩ :=
  ⟨(C8_log_like_error_policy.1 [] [] ⟨fun _ => .error .mav⟩ []
      (by intro p hp; simp at hp)).1 rfl,
   (C8_log_like_error_policy.2 [⟨fun _ => .ok .posinf⟩] [] [.posinf]
      rfl).2 rfl⟩

/-- A nuisance pair whose name does not contain the dataset name makes the
per-dataset nuisance loop fail with the name assertion. -/
theorem goPairs_error_of_bad (dname : List Nat) :
    ∀ pairs : List (List Nat × RParam),
      (∃ nu ∈ pairs, isSub dname nu.1 = false) →
      collectNuisance.goPairs dname pairs = .error .nuisanceName
  | [], h => by simp at h
  | (pname, p) :: rest, h => by
      by_cases hs : isSub dname pname = true
      · have hrest : ∃ nu ∈ rest, isSub dname nu.1 = false := by
          rcases h with ⟨nu, hmem, hval⟩
          rcases List.mem_cons.mp hmem with heq | htail
          · rw [heq] at hval; rw [hval] at hs; cases hs
          · exact ⟨nu, htail, hval⟩
        simp [collectNuisance.goPairs, hs,
          goPairs_error_of_bad dname rest hrest]
      · simp [collectNuisance.goPairs, Bool.of_not_eq_true hs]

/-- When every nuisance pair contains the dataset name, the per-dataset
loop collects the parameters in order. -/
theorem goPairs_ok_of_good (dname : List Nat) :
    ∀ pairs : List (List Nat × RParam),
      (∀ nu ∈ pairs, isSub dname nu.1 = true) →
      collectNuisance.goPairs dname pairs = .ok (pairs.map Prod.snd)
  | [], _ => rfl
  | (pname, p) :: rest, h => by
      have hs : isSub dname pname = true := h (pname, p) (by simp)
      have ih := goPairs_ok_of_good dname rest
        (fun nu hnu => h nu (List.mem_cons_of_mem _ hnu))
      simp [collectNuisance.goPairs, hs, ih]

/-- The only exception the per-dataset nuisance loop can raise is the name
assertion. -/
theorem goPairs_error_eq (dname : List Nat) :
    ∀ (pairs : List (List Nat × RParam)) (e : RegErr),
      collectNuisance.goPairs dname pairs = .error e → e = .nuisanceName
  | [], e, h => by simp [collectNuisance.goPairs] at h
  | (pname, p) :: rest, e, h => by
      by_cases hs : isSub dname pname = true
      · rw [collectNuisance.goPairs] at h
        simp only [hs, if_true] at h
        cases hrest : collectNuisance.goPairs dname rest with
        | error e2 =>
            rw [hrest] at h
            simp at h
            exact h ▸ goPairs_error_eq dname rest e2 hrest
        | ok tailParams => rw [hrest] at h; simp at h
      · rw [collectNuisance.goPairs] at h
        simp only [Bool.of_not_eq_true hs] at h
        simpa using h.symm

/-- A bad nuisance pair in any dataset makes the dataset loop fail with the
name assertion. -/
theorem collectNuisance_error_of_bad :
    ∀ datasets : List RDataset,
      (∃ d ∈ datasets, ∃ nu ∈ d.nuisance, isSub d.name nu.1 = false) →
      collectNuisance datasets = .error .nuisanceName
  | [], h => by simp at h
  | d :: ds, h => by
      rcases h with ⟨d0, hmem, hbad⟩
      rcases List.mem_cons.mp hmem with heq | htail
      · subst heq
        simp [collectNuisance, goPairs_error_of_bad d0.name d0.nuisance hbad]
      · cases hgo : collectNuisance.goPairs d.name d.nuisance with
        | error e =>
            have := goPairs_error_eq d.name d.nuisance e hgo
            subst this
            simp [collectNuisance, hgo]
        | ok here =>
            have ih := collectNuisance_error_of_bad ds ⟨d0, htail, hbad⟩
            simp [collectNuisance, hgo, ih]

/-- When every nuisance pair of every dataset contains its dataset's name,
the dataset loop collects all nuisance parameters in order. -/
theorem collectNuisance_ok_of_good :
    ∀ datasets : List RDataset,
      (∀ d ∈ datasets, ∀ nu ∈ d.nuisance, isSub d.name nu.1 = true) →
      collectNuisance datasets =
        .ok (datasets.flatMap (fun d => d.nuisance.map Prod.snd))
  | [], _ => rfl
  | d :: ds, h => by
      have hgo := goPairs_ok_of_good d.name d.nuisance (h d (by simp))
      have ih := collectNuisance_ok_of_good ds
        (fun d0 hd0 => h d0 (List.mem_cons_of_mem _ hd0))
      simp [collectNuisance, hgo, ih]

/-- C7: registration fails (with the spec's `ConfigurationError`, i.e. the
no-prior `RuntimeError`) whenever some free parameter has no prior, before
any dataset is touched; it fails with the nuisance-name assertion whenever
some dataset contributes a nuisance parameter whose name does not contain
the dataset's name; and when neither condition holds, every nuisance
parameter is added to the model and the registered flag is set. -/
theorem C7_registration (model : RModel) :
    ((∃ p ∈ model.freeParams, p.2.hasPrior = false) →
       ∀ datasets : List RDataset,
         register_model_and_data model datasets = .error .noPrior) ∧
    (∀ datasets : List RDataset, allHavePriors model = true →
       (∃ d ∈ datasets, ∃ nu ∈ d.nuisance, isSub d.name nu.1 = false) →
       register_model_and_data model datasets = .error .nuisanceName) ∧
    (∀ datasets : List RDataset, allHavePriors model = true →
       (∀ d ∈ datasets, ∀ nu ∈ d.nuisance, isSub d.name nu.1 = true) →
       register_model_and_data model datasets =
         .ok ({ model with
                externalParams := model.externalParams ++
                  datasets.flatMap (fun d => d.nuisance.map Prod.snd) },
              true)) := by
  refine ⟨?_, ?_, ?_⟩
  · intro hbad datasets
    have hall : allHavePriors model = false := by
      rcases hbad with ⟨p, hmem, hval⟩
      simp only [allHavePriors, List.all_eq_false]
      exact ⟨p, hmem, by simp [hval]⟩
    simp [register_model_and_data, hall]
  · intro datasets hall hbad
    simp [register_model_and_data, hall,
      collectNuisance_error_of_bad datasets hbad]
  · intro datasets hall hgood
    simp [register_model_and_data, hall,
      collectNuisance_ok_of_good datasets hgood]

/-- Closed instance of `C7_registration`: a model with one prior-less free
parameter rejects any registration; a prior-equipped model with one dataset
whose nuisance name contains the dataset name registers it. -/
theorem C7_witness :
    register_model_and_data ⟨[([0], ⟨false, 0⟩)], []⟩ [⟨[1], []⟩] =
      .error .noPrior ∧
    register_model_and_data ⟨[([0], ⟨true, 0⟩)], []⟩
        [⟨[1], [([1, 2], ⟨true, 7⟩)]⟩] =
      .ok (⟨[([0], ⟨true, 0⟩)], [⟨true, 7⟩]⟩, true) := by
  constructor
  · exact (C7_registration ⟨[([0], ⟨false, 0⟩)], []⟩).1
      ⟨([0], ⟨false, 0⟩), by simp, rfl⟩ [⟨[1], []⟩]
  · have := (C7_registration ⟨[([0], ⟨true, 0⟩)], []⟩).2.2
      [⟨[1], [([1, 2], ⟨true, 7⟩)]⟩] rfl
      (by intro d hd nu hnu; simp at hd; subst hd; simp at hnu; simp [hnu, isSub, hasPre])
    simpa using this

/-- When every parameter's prior has the unit-cube transform and the cube
vector is long enough, the prior closure maps each coordinate through its
parameter's transform and passes surplus coordinates through unchanged. -/
theorem cube_go_ok_of_all :
    ∀ (params : List CubeParam) (cube : List ℚ),
      params.length ≤ cube.length →
      (∀ p ∈ params, p.fromUnitCube ≠ none) →
      cube_go params cube =
        .ok ((params.zip cube).map
              (fun pc => pc.1.fromUnitCube.getD id pc.2) ++
             cube.drop params.length)
  | [], cube, _, _ => by simp [cube_go]
  | p :: ps, [], hlen, _ => by simp at hlen
  | p :: ps, c :: cs, hlen, hall => by
      obtain ⟨f, hf⟩ : ∃ f, p.fromUnitCube = some f := by
        cases hp : p.fromUnitCube with
        | none => exact absurd hp (hall p (by simp))
        | some f => exact ⟨f, rfl⟩
      have ih := cube_go_ok_of_all ps cs (by simpa using hlen)
        (fun q hq => hall q (List.mem_cons_of_mem _ hq))
      simp [cube_go, hf, ih]

/-- The prior closure fails naming the first parameter whose prior lacks
the unit-cube transform. -/
theorem cube_go_error_first (p : CubeParam) (post : List CubeParam)
    (hp : p.fromUnitCube = none) :
    ∀ (pre : List CubeParam) (cube : List ℚ),
      (pre ++ p :: post).length ≤ cube.length →
      (∀ q ∈ pre, q.fromUnitCube ≠ none) →
      cube_go (pre ++ p :: post) cube = .error (.missing p.name)
  | [], [], hlen, _ => by simp at hlen
  | [], c :: cs, hlen, _ => by simp [cube_go, hp]
  | q :: pre, [], hlen, _ => by simp at hlen
  | q :: pre, c :: cs, hlen, hpre => by
      obtain ⟨f, hf⟩ : ∃ f, q.fromUnitCube = some f := by
        cases hq : q.fromUnitCube with
        | none => exact absurd hq (hpre q (by simp))
        | some f => exact ⟨f, rfl⟩
      have ih := cube_go_error_first p post hp pre cs
        (by simpa using hlen) (fun r hr => hpre r (List.mem_cons_of_mem _ hr))
      simp [cube_go, hf, ih]

/-- If some parameter's prior lacks the unit-cube transform, the prior
closure fails (with some missing-transform error) on any long-enough
cube. -/
theorem cube_go_error_of_missing :
    ∀ (params : List CubeParam) (cube : List ℚ),
      params.length ≤ cube.length →
      (∃ p ∈ params, p.fromUnitCube = none) →
      ∃ nm, cube_go params cube = .error (.missing nm)
  | [], cube, _, h => by simp at h
  | p :: ps, [], hlen, _ => by simp at hlen
  | p :: ps, c :: cs, hlen, h => by
      cases hp : p.fromUnitCube with
      | none => exact ⟨p.name, by simp [cube_go, hp]⟩
      | some f =>
          have htail : ∃ q ∈ ps, q.fromUnitCube = none := by
            rcases h with ⟨q, hmem, hval⟩
            rcases List.mem_cons.mp hmem with heq | htail
            · rw [heq] at hval; rw [hval] at hp; cases hp
            · exact ⟨q, htail, hval⟩
          obtain ⟨nm, hnm⟩ := cube_go_error_of_missing ps cs
            (by simpa using hlen) htail
          exact ⟨nm, by simp [cube_go, hp, hnm]⟩

/-- C9 counterexample: with the copy-returning variant
(`return_copy = True`) and a single parameter whose prior lacks
`from_unit_cube`, `_construct_unitcube_posterior` returns its closures
successfully -- no dry-run evaluation surfaces the missing transform at
construction time, although the prior closure itself fails when called. -/
theorem C9_counterexample :
    isOkB (construct_unitcube_posterior [⟨0, none⟩] true) = true ∧
    cube_go [⟨0, none⟩] [1/2] = .error (.missing 0) := ⟨rfl, rfl⟩

/-- C9 (amended): the prior-transform closure maps each free parameter's
unit-cube coordinate through that parameter's `from_unit_cube` and fails
naming the first offending parameter when a prior lacks the transform; the
dry-run evaluation of the prior transform before the closures are returned
is performed only by the in-place variant (`return_copy = False`), where it
surfaces a missing transform immediately; the copy-returning variant
performs no dry run and always returns its closures. -/
theorem C9_unitcube_posterior (params : List CubeParam) :
    (∀ cube : List ℚ, params.length ≤ cube.length →
       ((∀ p ∈ params, p.fromUnitCube ≠ none) →
          cube_go params cube =
            .ok ((params.zip cube).map
                  (fun pc => pc.1.fromUnitCube.getD id pc.2) ++
                 cube.drop params.length)) ∧
       (∀ (pre post : List CubeParam) (p : CubeParam),
          params = pre ++ p :: post →
          (∀ q ∈ pre, q.fromUnitCube ≠ none) → p.fromUnitCube = none →
          cube_go params cube = .error (.missing p.name))) ∧
    ((∃ p ∈ params, p.fromUnitCube = none) ↔
       isOkB (construct_unitcube_posterior params false) = false) ∧
    isOkB (construct_unitcube_posterior params true) = true := by
  refine ⟨fun cube hlen => ⟨fun hall => cube_go_ok_of_all params cube hlen hall,
    fun pre post p hsplit hpre hp => by
      subst hsplit
      exact cube_go_error_first p post hp pre cube hlen hpre⟩, ?_, rfl⟩
  constructor
  · intro hmiss
    obtain ⟨nm, hnm⟩ := cube_go_error_of_missing params
      (List.replicate params.length (1/2 : ℚ)) (by simp) hmiss
    rw [show ((1 : ℚ)/2) = (2⁻¹ : ℚ) from one_div 2] at hnm
    simp [construct_unitcube_posterior, hnm, isOkB]
  · intro hfail
    by_contra hno
    push_neg at hno
    have hall : ∀ p ∈ params, p.fromUnitCube ≠ none := by
      intro p hp hnone
      exact absurd hnone (by simpa using hno p hp)
    have hok := cube_go_ok_of_all params
      (List.replicate params.length (1/2 : ℚ)) (by simp) hall
    rw [show ((1 : ℚ)/2) = (2⁻¹ : ℚ) from one_div 2] at hok
    simp [construct_unitcube_posterior, hok, isOkB] at hfail

/-- Closed instance of `C9_unitcube_posterior`: one parameter with a
working transform is mapped through it, and the copy-returning variant
always returns its closures. -/
theorem C9_witness :
    cube_go [⟨5, some (fun q => q + 1)⟩] [0] = .ok [0 + 1] ∧
    isOkB (construct_unitcube_posterior [⟨5, some (fun q => q + 1)⟩] true) =
      true := by
  have h := C9_unitcube_posterior [⟨5, some (fun q => q + 1)⟩]
  refine ⟨?_, h.2.2⟩
  have := (h.1 [0] (by simp)).1 (by intro p hp; simp at hp; simp [hp])
  simpa using this

/-- Left-folding addition over a list equals the starting value plus the
list sum. -/
theorem foldl_add_eq (l : List ℚ) : ∀ a : ℚ, l.foldl (· + ·) a = a + l.sum := by
  induction l with
  | nil => intro a; simp
  | cons x xs ih => intro a; simp [ih, add_assoc]

/-- The staged array computation of the Cash statistic collapses to one
closed-form term per bin. -/
theorem cashTermList_eq (log : ℚ → ℚ) (tiny : ℚ) (pars : List ℚ) :
    ∀ x y exposure : List ℚ, y.length = x.length →
      exposure.length = x.length →
      cashTermList log tiny x y exposure pars =
        (x.zip (y.zip exposure)).map
          (fun t => cashTerm log tiny (horner pars t.1 * t.2.2) t.2.1)
  | [], y, exposure, hy, he => by simp [cashTermList]
  | x0 :: xs, [], exposure, hy, he => by simp at hy
  | x0 :: xs, y0 :: ys, [], hy, he => by simp at he
  | x0 :: xs, y0 :: ys, e0 :: es, hy, he => by
      have ih := cashTermList_eq log tiny pars xs ys es
        (by simpa using hy) (by simpa using he)
      simp only [cashTermList, List.map_map] at ih ⊢
      simp [ih, cashTerm]

/-- C3: the Cash objective equals the sum, over bins, of the clamped model
value minus the count times the stabilized log of that value; the value
entering the log term is never negative; bins with a non-positive count
contribute no log term at all (independently of the log collaborator, so
no NaN or infinity can arise from them); and the bin with count 0 and
model value 0 contributes exactly 0. -/
theorem C3_cash_statistic (log : ℚ → ℚ) (tiny : ℚ) (x y exposure pars : List ℚ)
    (hy : y.length = x.length) (he : exposure.length = x.length)
    (htiny : 0 < tiny) :
    bkgLogLike log tiny x y exposure pars =
      ((x.zip (y.zip exposure)).map
        (fun t => cashTerm log tiny (horner pars t.1 * t.2.2) t.2.1)).sum ∧
    (∀ m : ℚ, 0 ≤ (if fixP tiny m < 0 then 0 else fixP tiny m)) ∧
    (∀ (m yv : ℚ) (lg1 lg2 : ℚ → ℚ), yv ≤ 0 →
       cashTerm lg1 tiny m yv = (if fixP tiny m < 0 then 0 else fixP tiny m) ∧
       cashTerm lg1 tiny m yv = cashTerm lg2 tiny m yv) ∧
    cashTerm log tiny 0 0 = 0 := by
  refine ⟨?_, ?_, ?_, ?_⟩
  · have hlist := cashTermList_eq log tiny pars x y exposure hy he
    calc bkgLogLike log tiny x y exposure pars
        = (cashTermList log tiny x y exposure pars).foldl (· + ·) 0 := rfl
      _ = 0 + (cashTermList log tiny x y exposure pars).sum :=
          foldl_add_eq _ 0
      _ = _ := by rw [zero_add, hlist]
  · intro m
    by_cases h : fixP tiny m < 0
    · simp [h]
    · simp only [h, if_false]
      exact le_of_not_lt h
  · intro m yv lg1 lg2 hyv
    have hnot : ¬ 0 < yv := not_lt.mpr hyv
    constructor <;> simp [cashTerm, hnot]
  · have h0 : fixP tiny 0 = 0 := by
      simp [fixP, qsign, le_of_lt htiny]
    simp [cashTerm, h0]

/-- Closed instance of `C3_cash_statistic`: one bin with model value 2 and
count 0 contributes exactly the model value, whatever the log
collaborator. -/
theorem C3_witness :
    bkgLogLike (fun _ => 5) 1 [3] [0] [1] [2] = 2 := by
  have h := (C3_cash_statistic (fun _ => 5) 1 [3] [0] [1] [2] rfl rfl
    (by norm_num)).1
  rw [h]
  norm_num [cashTerm, fixP, qsign, stabLog, horner]

/-- When no statistic reaches the threshold, the crossing mask is empty. -/
theorem crossings_nil :
    ∀ (ds : List ℚ) (n : ℕ), (∀ d ∈ ds, d < 9) →
      (ds.enumFrom n).filter (fun p => decide (9 ≤ p.2)) = []
  | [], _, _ => rfl
  | d :: ds, n, h => by
      have hd : ¬ (9 ≤ d) := not_le.mpr (h d (by simp))
      have ih := crossings_nil ds (n + 1)
        (fun e he => h e (List.mem_cons_of_mem _ he))
      simp [List.enumFrom, List.filter, hd, ih]

/-- The last crossing index of the enumerated-and-filtered statistic list
is the largest index whose statistic reaches the threshold. -/
theorem crossings_getLast :
    ∀ (ds : List ℚ) (n i : ℕ) (h : i < ds.length),
      9 ≤ ds.get ⟨i, h⟩ →
      (∀ (j : ℕ) (hj : j < ds.length), i < j → ds.get ⟨j, hj⟩ < 9) →
      (((ds.enumFrom n).filter (fun p => decide (9 ≤ p.2))).map
        Prod.fst).getLast? = some (n + i)
  | [], n, i, h, _, _ => by simp at h
  | d :: ds, n, 0, h, hcross, hafter => by
      have htail : ∀ e ∈ ds, e < 9 := by
        intro e he
        obtain ⟨j, rfl⟩ := List.mem_iff_get.mp he
        exact hafter ((j : ℕ) + 1) (Nat.succ_lt_succ j.isLt)
          (Nat.succ_pos (j : ℕ))
      have hnil := crossings_nil ds (n + 1) htail
      have hd : (9 : ℚ) ≤ d := by simpa using hcross
      simp [List.enumFrom, List.filter, hd, hnil]
  | d :: ds, n, i + 1, h, hcross, hafter => by
      have ih := crossings_getLast ds (n + 1) i (by simpa using h)
        (by simpa using hcross)
        (fun j hj hij => by
          have := hafter (j + 1) (by simpa using Nat.succ_lt_succ hj)
            (Nat.succ_lt_succ hij)
          simpa using this)
      have hne : ((ds.enumFrom (n + 1)).filter
          (fun p => decide (9 ≤ p.2))).map Prod.fst ≠ [] := by
        intro hcontra
        rw [hcontra] at ih
        simp at ih
      by_cases hd : (9 : ℚ) ≤ d
      · have : ((d :: ds).enumFrom n).filter (fun p => decide (9 ≤ p.2)) =
            (n, d) :: (ds.enumFrom (n + 1)).filter
              (fun p => decide (9 ≤ p.2)) := by
          simp [List.enumFrom, List.filter, hd]
        rw [this, List.map_cons,
          show (n :: ((ds.enumFrom (n + 1)).filter
              (fun p => decide (9 ≤ p.2))).map Prod.fst) =
            [n] ++ ((ds.enumFrom (n + 1)).filter
              (fun p => decide (9 ≤ p.2))).map Prod.fst from rfl,
          List.getLast?_append_of_ne_nil _ hne, ih]
        congr 1
        omega
      · have : ((d :: ds).enumFrom n).filter (fun p => decide (9 ≤ p.2)) =
            (ds.enumFrom (n + 1)).filter (fun p => decide (9 ≤ p.2)) := by
          simp [List.enumFrom, List.filter, hd]
        rw [this, ih]
        congr 1
        omega

/-- C4 counterexample: with per-grade log-likelihoods `[9/2, 0, 0, 0, 0]`
the consecutive-degree statistics are `[9, 0, 0, 0]`; no statistic strictly
exceeds the threshold 9.0, yet the selected grade is 1, not 0, because the
source compares with `>=`. -/
theorem C4_counterexample :
    fitGlobalOptimumGrade (fun _ _ g => if g = 0 then 9 / 2 else 0) [] [] = 1 ∧
    (List.range 5).map (fun g => if g = 0 then (9 : ℚ) / 2 else 0) =
      [9 / 2, 0, 0, 0, 0] ∧
    deltaLogLike [9 / 2, 0, 0, 0, 0] = [9, 0, 0, 0] ∧
    ([9, 0, 0, 0] : List ℚ).all (fun d => d ≤ 9) = true := by
  refine ⟨?_, ?_, ?_, ?_⟩
  · norm_num [fitGlobalOptimumGrade, bestGrade, deltaLogLike,
      List.range_succ, List.enum, List.enumFrom, List.filter]
  · norm_num [List.range_succ]
  · norm_num [deltaLogLike]
  · norm_num [List.all_cons]

/-- C4 (amended): the optimum-grade search fits the channel-summed series
with degrees 0 through 4, builds the statistics
`2 * (logLike[g] - logLike[g+1])` for consecutive degrees, and returns
`g + 1` for the last degree `g` whose statistic is at least (meets or
exceeds) the threshold 9.0; when every statistic is below the threshold it
returns 0. -/
theorem C4_degree_selection (polyfit : List ℚ → List ℚ → ℕ → ℚ)
    (cnts bins : List ℚ) :
    deltaLogLike ((List.range 5).map (polyfit bins cnts)) =
      (List.range 4).map
        (fun g => 2 * (polyfit bins cnts g - polyfit bins cnts (g + 1))) ∧
    ((∀ d ∈ deltaLogLike ((List.range 5).map (polyfit bins cnts)), d < 9) →
       fitGlobalOptimumGrade polyfit cnts bins = 0) ∧
    (∀ (i : ℕ)
       (h : i < (deltaLogLike ((List.range 5).map (polyfit bins cnts))).length),
       9 ≤ (deltaLogLike ((List.range 5).map (polyfit bins cnts))).get ⟨i, h⟩ →
       (∀ (j : ℕ)
          (hj : j < (deltaLogLike
            ((List.range 5).map (polyfit bins cnts))).length),
          i < j →
          (deltaLogLike ((List.range 5).map (polyfit bins cnts))).get ⟨j, hj⟩
            < 9) →
       fitGlobalOptimumGrade polyfit cnts bins = i + 1) := by
  refine ⟨?_, ?_, ?_⟩
  · simp [deltaLogLike, List.range_succ]
  · intro hall
    have := crossings_nil (deltaLogLike ((List.range 5).map (polyfit bins cnts)))
      0 hall
    simp [fitGlobalOptimumGrade, bestGrade, List.enum, this]
  · intro i h hcross hafter
    have := crossings_getLast
      (deltaLogLike ((List.range 5).map (polyfit bins cnts))) 0 i h
      hcross hafter
    simp only [fitGlobalOptimumGrade, bestGrade, List.enum] at this ⊢
    rw [this]
    simp

/-- Closed instance of `C4_degree_selection`: a constant log-likelihood
profile yields all-zero statistics and grade 0. -/
theorem C4_witness :
    fitGlobalOptimumGrade (fun _ _ _ => 3) [] [] = 0 :=
  (C4_degree_selection (fun _ _ _ => 3) [] []).2.1
    (by norm_num [deltaLogLike, List.range_succ])

/-- Unfolding of `Polynomial.computeCovarianceMatrix` as one case split on
the inversion oracle. -/
theorem polyComputeCov_eq (inv : List (List ℚ) → Option (List (List ℚ)))
    (grad : List ℚ → List ℚ) (pars : List ℚ) :
    polyComputeCov inv grad pars =
      match inv (hessOf defaultCovCfg (1 / 100) grad pars) with
      | none => .error .singular
      | some cov =>
          if anyDiagNeg cov then .error .negDiag else .ok cov := by
  simp only [polyComputeCov, computeCovMatrix]
  cases inv (hessOf defaultCovCfg (1 / 100) grad pars) <;> rfl

/-- C5: after the polynomial fit, covariance computation fails in exactly
two circumstances -- `numpy.linalg.inv` cannot invert the assembled
finite-difference Hessian (the fatal inversion `Exception`), or some
diagonal entry of the resulting covariance matrix is negative (the
`RuntimeError`) -- and in every other case the covariance matrix is
returned; per-parameter step sizes that never converge only land in the
non-fatal warning list, and their Hessian rows are used all the same. -/
theorem C5_cov_failure_modes (inv : List (List ℚ) → Option (List (List ℚ)))
    (grad : List ℚ → List ℚ) (pars : List ℚ) :
    (polyComputeCov inv grad pars = .error .singular ↔
       inv (hessOf defaultCovCfg (1 / 100) grad pars) = none) ∧
    (polyComputeCov inv grad pars = .error .negDiag ↔
       ∃ cov, inv (hessOf defaultCovCfg (1 / 100) grad pars) = some cov ∧
         anyDiagNeg cov = true) ∧
    (∀ cov, inv (hessOf defaultCovCfg (1 / 100) grad pars) = some cov →
       anyDiagNeg cov = false → polyComputeCov inv grad pars = .ok cov) ∧
    (∀ cov, inv (hessOf defaultCovCfg (1 / 100) grad pars) = some cov →
       computeCovMatrix defaultCovCfg (1 / 100) inv grad pars =
         .ok (cov, warnRows defaultCovCfg (1 / 100) grad pars)) := by
  cases hinv : inv (hessOf defaultCovCfg (1 / 100) grad pars) with
  | none =>
      refine ⟨?_, ?_, ?_, ?_⟩
      · rw [polyComputeCov_eq, hinv]
        simp
      · rw [polyComputeCov_eq, hinv]
        simp
      · intro cov hcov
        exact absurd hcov (by simp)
      · intro cov hcov
        exact absurd hcov (by simp)
  | some cov0 =>
      refine ⟨?_, ?_, ?_, ?_⟩
      · rw [polyComputeCov_eq, hinv]
        by_cases h : anyDiagNeg cov0 = true <;> simp [h]
      · rw [polyComputeCov_eq, hinv]
        by_cases h : anyDiagNeg cov0 = true <;> simp [h]
      · intro cov hcov hfalse
        have he : cov0 = cov := by injection hcov
        subst he
        rw [polyComputeCov_eq, hinv]
        simp [hfalse]
      · intro cov hcov
        have he : cov0 = cov := by injection hcov
        subst he
        simp only [computeCovMatrix]
        rw [hinv]

/-- Closed instance of `C5_cov_failure_modes`: on a one-parameter identity
gradient the step sizing converges at once, the Hessian is `[[1]]`, and a
well-behaved inversion oracle yields the covariance matrix with no
failure. -/
theorem C5_witness :
    polyComputeCov (fun m => some m) (fun p => p) [5] = .ok [[1]] := by
  have hs0 : initStep defaultCovCfg (1 / 100) = 1 / 100 := by
    rw [initStep, max_eq_left (by norm_num [defaultCovCfg]),
      min_eq_left (by norm_num [defaultCovCfg])]
  have hrow : rowLoop defaultCovCfg (fun p => p) [5] 0 (49 + 1) (1 / 100) =
      ⟨[5 + 1 / 100], [5 - 1 / 100], 1 / 100, true⟩ := by
    rw [rowLoop]
    norm_num [bump, revised_step, defaultCovCfg, abs_of_pos]
  have hhess : hessOf defaultCovCfg (1 / 100) (fun p => p) [5] = [[1]] := by
    simp only [hessOf, hessRow, List.length_cons, List.length_nil,
      List.range_succ, List.range_zero, List.map_cons, List.map_nil,
      List.nil_append, hs0]
    rw [show defaultCovCfg.max_iters = 49 + 1 from rfl, hrow]
    norm_num [List.zip]
  exact (C5_cov_failure_modes (fun m => some m) (fun p => p) [5]).2.2.1 [[1]]
    (by rw [hhess]) (by norm_num [anyDiagNeg])

/-- Whenever the once-computed `dof` is below 2, the shrink loop of
`_polyfit` cannot stop early: it always drops coefficients until exactly
one remains, because its guard never changes. -/
theorem shrinkLoop_collapses (dof : ℤ) (hdof : dof < 2) (ig : List ℚ)
    (hne : ig ≠ []) : (shrinkLoop dof ig).length = 1 := by
  suffices h : ∀ (n : ℕ) (l : List ℚ), l ≠ [] → l.length ≤ n →
      (shrinkGo dof n l).length = 1 by
    exact h ig.length ig hne le_rfl
  intro n
  induction n with
  | zero =>
      intro l hne hlen
      cases l with
      | nil => exact absurd rfl hne
      | cons a l => simp at hlen
  | succ n ih =>
      intro l hne hlen
      rw [shrinkGo]
      by_cases hl : 1 < l.length
      · rw [if_pos ⟨hdof, hl⟩]
        exact ih l.dropLast
          (by
            intro hcontra
            have := congrArg List.length hcontra
            rw [List.length_dropLast] at this
            simp at this
            omega)
          (by rw [List.length_dropLast]; omega)
      · rw [if_neg (fun hc => hl hc.2)]
        have : l.length ≠ 0 := fun hc => hne (List.eq_nil_of_length_eq_zero hc)
        omega

/-- C6: at the failing input (4 nonzero bins, grade 4, five seed
coefficients, hence `dof = -1`) the degrees-of-freedom adjustment of
`_polyfit` drops all the way to a single coefficient: the loop guard
`dof < 2` is computed once before the loop and never recomputed, so the
loop does not stop when the recomputed degrees of freedom (`4 - 2 = 2`
after the third drop) first reach 2, as the claim describes. -/
theorem C6_dof_loop_failing_input :
    polyfitDofAdjust 4 4 [1, 1, 1, 1, 1] = [1] := by decide

/-- C10 counterexample: `setParams` replaces the coefficient vector without
updating `degree` or the covariance matrix, so passing a vector of a
different length breaks the claimed shape invariant: the object ends up
with 2 stored coefficients while `degree + 1 = 1`, and the invariant
checker reports the violation. -/
theorem C10_counterexample :
    (applyOps (polyInit [0]) [PolyOp.set [1, 2]]).params.length = 2 ∧
    (applyOps (polyInit [0]) [PolyOp.set [1, 2]]).degree + 1 = 1 ∧
    polyInvariantB (applyOps (polyInit [0]) [PolyOp.set [1, 2]]) = false := by
  refine ⟨rfl, rfl, ?_⟩
  decide

/-- The boolean invariant checker decides the shape invariant. -/
theorem polyInvariantB_iff (st : PolyState) :
    polyInvariantB st = true ↔ polyInvariant st := by
  simp [polyInvariantB, polyInvariant, List.all_eq_true, and_assoc]

/-- The assembled Hessian has one row per parameter. -/
theorem hessOf_length (cfg : CovCfg) (init_step : ℚ)
    (grad : List ℚ → List ℚ) (par : List ℚ) :
    (hessOf cfg init_step grad par).length = par.length := by
  simp [hessOf]

/-- A successful covariance run means the inversion oracle accepted the
assembled Hessian. -/
theorem computeCovMatrix_ok_inv (cfg : CovCfg) (init_step : ℚ)
    (inv : List (List ℚ) → Option (List (List ℚ)))
    (grad : List ℚ → List ℚ) (par : List ℚ) (cov : List (List ℚ))
    (warns : List ℕ)
    (h : computeCovMatrix cfg init_step inv grad par = .ok (cov, warns)) :
    inv (hessOf cfg init_step grad par) = some cov := by
  rw [computeCovMatrix] at h
  cases hinv : inv (hessOf cfg init_step grad par) with
  | none => rw [hinv] at h; cases h
  | some c =>
      rw [hinv] at h
      have : c = cov := by
        have := congrArg (fun e => match e with
          | Except.ok (p : List (List ℚ) × List ℕ) => p.1
          | Except.error _ => c) h
        simpa using this
      rw [this]

/-- One well-formed operation preserves the `Polynomial` shape invariant
and never changes the stored degree. -/
theorem applyOp_invariant (st0 st : PolyState) (op : PolyOp)
    (hdeg : st.degree = st0.degree) (hinv : polyInvariant st)
    (hop : opOk st0 op) :
    (applyOp st op).degree = st0.degree ∧ polyInvariant (applyOp st op) := by
  cases op with
  | set ps =>
      refine ⟨hdeg, ?_, ?_, ?_⟩
      · show (ps.length : ℤ) = st.degree + 1
        rw [opOk] at hop
        rw [hdeg]
        exact hop
      · exact hdeg ▸ (hdeg ▸ hinv.2.1)
      · exact fun row hrow => hinv.2.2 row hrow
  | computeCov inv grad =>
      obtain ⟨hinvc, _⟩ := hop
      rw [applyOp, polyComputeCovState]
      cases hC : computeCovMatrix defaultCovCfg (1 / 100) inv grad st.params
        with
      | error e => exact ⟨hdeg, hinv⟩
      | ok p =>
          obtain ⟨cov, warns⟩ := p
          have hsome := computeCovMatrix_ok_inv _ _ _ _ _ _ _ hC
          obtain ⟨hlen, hrows⟩ := hinvc _ _ hsome
          rw [hessOf_length] at hlen hrows
          refine ⟨hdeg, ?_, ?_, ?_⟩
          · exact hinv.1
          · show (cov.length : ℤ) = st.degree + 1
            rw [hlen]
            exact hinv.1
          · intro row hrow
            show ((row.length : ℕ) : ℤ) = st.degree + 1
            rw [hrows row hrow]
            exact hinv.1

/-- C10 (amended): over any operation sequence in which every `setParams`
call receives a vector of the object's arity and the numpy collaborators
respect their shape contracts, the coefficient count equals `degree + 1`
and the covariance matrix stays square of that size; the covariance matrix
is all zero at construction; a `computeCovarianceMatrix` call whose Hessian
inversion fails leaves the state untouched, while one whose inversion
succeeds stores the inverted matrix -- even when the subsequent
negative-diagonal check then raises. -/
theorem C10_poly_shape_invariant (ps : List ℚ) (ops : List PolyOp)
    (hops : ∀ op ∈ ops, opOk (polyInit ps) op) :
    polyInvariant (applyOps (polyInit ps) ops) ∧
    (polyInit ps).covMatrix = zeroMatrix ps.length ∧
    (∀ (st : PolyState) (inv : List (List ℚ) → Option (List (List ℚ)))
       (grad : List ℚ → List ℚ),
       computeCovMatrix defaultCovCfg (1 / 100) inv grad st.params =
         .error () →
       (polyComputeCovState st inv grad).1 = st) ∧
    (∀ (st : PolyState) (inv : List (List ℚ) → Option (List (List ℚ)))
       (grad : List ℚ → List ℚ) (cov : List (List ℚ)) (warns : List ℕ),
       computeCovMatrix defaultCovCfg (1 / 100) inv grad st.params =
         .ok (cov, warns) →
       (polyComputeCovState st inv grad).1.covMatrix = cov) := by
  refine ⟨?_, rfl, ?_, ?_⟩
  · have hinit : polyInvariant (polyInit ps) := by
      refine ⟨by simp [polyInit], ?_, ?_⟩
      · simp [polyInit, zeroMatrix]
      · intro row hrow
        rw [polyInit] at hrow
        have := List.eq_of_mem_replicate hrow
        rw [this]
        simp [polyInit]
    suffices h : ∀ (os : List PolyOp) (st : PolyState),
        st.degree = (polyInit ps).degree → polyInvariant st →
        (∀ op ∈ os, opOk (polyInit ps) op) →
        polyInvariant (applyOps st os) by
      exact h ops (polyInit ps) rfl hinit hops
    intro os
    induction os with
    | nil => intro st _ hinv _; exact hinv
    | cons op os ih =>
        intro st hdeg hinv hos
        have hstep := applyOp_invariant (polyInit ps) st op hdeg hinv
          (hos op (by simp))
        exact ih (applyOp st op) hstep.1 hstep.2
          (fun o ho => hos o (List.mem_cons_of_mem _ ho))
  · intro st inv grad hC
    rw [polyComputeCovState, hC]
  · intro st inv grad cov warns hC
    rw [polyComputeCovState, hC]

/-- Closed instance of `C10_poly_shape_invariant`: a degree-0 polynomial
whose coefficient is replaced by another single coefficient keeps the
invariant. -/
theorem C10_witness :
    polyInvariant (applyOps (polyInit [0]) [PolyOp.set [5]]) :=
  (C10_poly_shape_invariant [0] [PolyOp.set [5]]
    (by
      intro op hop
      simp at hop
      subst hop
      norm_num [opOk, polyInit])).1

end ThreeML
